import Mathlib

/-!
Shallow embedding of the `triangles` peg-solitaire repository
(`src/triangles/models.py`, `src/triangles/core.py`, `src/triangles/commands.py`).

Positions are Python ints validated into the range 0..14; we embed them as
`Nat` at the API boundary (Python's `_validate_position` rejects everything
outside `0 <= p <= 14`) and as `Fin 15` for the occupancy map itself.
A raised `ValueError` is embedded as `Except.error` carrying the formatted
message, or — where the claim concerns the object state left behind after an
exception — as a `(state, Option String)` pair.
-/

/-- Occupancy state of the 15-hole board.  Python stores a dict keyed by
0..14 with boolean values (`self._pins`); we store the same data as a
function `Fin 15 → Bool`.  `Board.__eq__` compares occupancy at all 15
positions and ignores everything else, which coincides with equality of this
structure.  The `previous_board` back-reference of the Python class is
path-reconstruction metadata that never influences occupancy, move legality
or equality; no claim in scope depends on it, so it is not carried here. -/
structure Board where
  pins : Fin 15 → Bool

instance : DecidableEq Board := fun a b =>
  match a, b with
  | ⟨pa⟩, ⟨pb⟩ =>
    if h : pa = pb then .isTrue (by simp [h]) else .isFalse (by simp [h])

instance {ε α : Type} [DecidableEq ε] [DecidableEq α] : DecidableEq (Except ε α)
  | .ok a, .ok b =>
    if h : a = b then .isTrue (by rw [h]) else .isFalse (by simp [h])
  | .error a, .error b =>
    if h : a = b then .isTrue (by rw [h]) else .isFalse (by simp [h])
  | .ok _, .error _ => .isFalse fun h => Except.noConfusion h
  | .error _, .ok _ => .isFalse fun h => Except.noConfusion h

/-- Python `Board._validate_position(position, name)`: raises
`ValueError('{name} out of range (must be 0 through 14)')` unless
`0 <= position <= 14`.  The default `name=None` message uses the word
`position`, so callers that pass no name supply `"position"` here. -/
def validatePos (name : String) (p : Nat) : Except String (Fin 15) :=
  if h : p ≤ 14 then .ok ⟨p, by omega⟩
  else .error (name ++ " out of range (must be 0 through 14)")

/-- Python `Board.__init__(empty_position)`: validates the empty position,
then marks every position occupied except `empty_position`. -/
def Board.init (empty_position : Nat) : Except String Board :=
  match validatePos "empty_position" empty_position with
  | .error m => .error m
  | .ok fe => .ok ⟨fun p => !(p == fe)⟩

/-- Python `Board.pin_status(position)`: validates the position, then reads
the occupancy entry. -/
def Board.pin_status (b : Board) (p : Nat) : Except String Bool :=
  match validatePos "position" p with
  | .error m => .error m
  | .ok fp => .ok (b.pins fp)

/-- Python `Board.copy()`: a fresh board with identical occupancy (the
`previous_board` back-link it also sets is not modelled, see `Board`). -/
def Board.copy (b : Board) : Board := b

/-- Number of occupied positions: Python `sum(v == True for v in
self._pins.values())`, i.e. the number of positions whose pin is present. -/
def pegCount (b : Board) : Nat :=
  (Finset.univ.filter fun p => b.pins p = true).card

/-- Python `Board.is_won()`: exactly one pin remains. -/
def Board.is_won (b : Board) : Bool :=
  pegCount b == 1

/-- Python `Board.occupied_positions()`: the positions whose status is True,
in dict iteration order (insertion order 0,1,...,14). -/
def Board.occupied_positions (b : Board) : List Nat :=
  ((List.finRange 15).filter fun p => b.pins p).map Fin.val

/-- Total in-range pin read used to state properties of the embedding (the
wrap to `p % 15` never fires on the in-range indices it is applied to). -/
def pinAt (b : Board) (p : Nat) : Bool :=
  b.pins ⟨p % 15, Nat.mod_lt _ (by omega)⟩

/-- The `if position == 0 ... elif ... else` chain in the body of
`Board.valid_moves_for_position`, after the position has been validated.
The final `else` branch (reached only for position 14 once validation has
passed) is the table for position 14. -/
def vmfpTable (position : Nat) : List (Nat × Nat × Nat) :=
  if position = 0 then [(0, 2, 1), (0, 9, 5)]
  else if position = 1 then [(1, 3, 2), (1, 10, 6)]
  else if position = 2 then [(2, 0, 1), (2, 9, 6), (2, 11, 7), (2, 4, 3)]
  else if position = 3 then [(3, 1, 2), (3, 10, 7)]
  else if position = 4 then [(4, 2, 3), (4, 11, 8)]
  else if position = 5 then [(5, 7, 6), (5, 12, 9)]
  else if position = 6 then [(6, 8, 7), (6, 13, 10)]
  else if position = 7 then [(7, 5, 6), (7, 12, 10)]
  else if position = 8 then [(8, 6, 7), (8, 13, 11)]
  else if position = 9 then [(9, 0, 5), (9, 2, 6), (9, 11, 10), (9, 14, 12)]
  else if position = 10 then [(10, 1, 6), (10, 3, 7)]
  else if position = 11 then [(11, 4, 8), (11, 2, 7), (11, 9, 10), (11, 14, 13)]
  else if position = 12 then [(12, 5, 9), (12, 7, 10)]
  else if position = 13 then [(13, 6, 10), (13, 8, 11)]
  else [(14, 9, 12), (14, 11, 13)]

/-- Python `Board.valid_moves_for_position(position)` (static): validates the
position, then returns the fixed rule table for it. -/
def Board.valid_moves_for_position (position : Nat) :
    Except String (List (Nat × Nat × Nat)) :=
  match validatePos "position" position with
  | .error m => .error m
  | .ok _ => .ok (vmfpTable position)

/-- Python `Board.move(start, end, jump)`: validates all three positions,
checks `start` occupied, `end` empty, `jump` occupied, and only then mutates
the board (start and jump cleared, end set).  The result is the board state
after the call together with the raised message, if any; every raise happens
before the first mutation, so the state on the error path is the input
board unchanged. -/
def Board.move (b : Board) (start «end» jump : Nat) : Board × Option String :=
  match validatePos "start" start with
  | .error m => (b, some m)
  | .ok fs =>
    match validatePos "end" «end» with
    | .error m => (b, some m)
    | .ok fe =>
      match validatePos "jump" jump with
      | .error m => (b, some m)
      | .ok fj =>
        if b.pins fs = false then (b, some "start is empty")
        else if b.pins fe = true then (b, some "end is occupied")
        else if b.pins fj = false then (b, some "jump is empty")
        else
          (⟨Function.update (Function.update (Function.update b.pins fs false)
              fj false) fe true⟩, none)

/-- The `for start, end, jump in self.valid_moves_for_position(position)`
loop in `Board.moves_for_position`: skip a triple when the ending position
is occupied or the jumped position is empty, otherwise keep it.  Both status
reads go through `pin_status`, whose range check can in principle raise. -/
def movesGo (b : Board) : List (Nat × Nat × Nat) →
    Except String (List (Nat × Nat × Nat))
  | [] => .ok []
  | (s, e, j) :: rest => do
    let endStatus ← b.pin_status e
    if endStatus then movesGo b rest
    else do
      let jumpStatus ← b.pin_status j
      if jumpStatus = false then movesGo b rest
      else do
        let ms ← movesGo b rest
        .ok ((s, e, j) :: ms)

/-- Python `Board.moves_for_position(position)`: validate, return `[]` when
the position holds no pin, otherwise filter the static rule table by the
current pin statuses. -/
def Board.moves_for_position (b : Board) (position : Nat) :
    Except String (List (Nat × Nat × Nat)) :=
  match validatePos "position" position with
  | .error m => .error m
  | .ok fp =>
    if b.pins fp = false then .ok []
    else do
      let table ← Board.valid_moves_for_position position
      movesGo b table

/-- The `for position in self.occupied_positions()` accumulation loop of
`Board.moves`. -/
def movesOuter (b : Board) : List Nat → Except String (List (Nat × Nat × Nat))
  | [] => .ok []
  | p :: ps => do
    let here ← b.moves_for_position p
    let rest ← movesOuter b ps
    .ok (here ++ rest)

/-- Python `Board.moves()`: all possible moves for the current board, in
position order then rule order. -/
def Board.moves (b : Board) : Except String (List (Nat × Nat × Nat)) :=
  movesOuter b b.occupied_positions

/-- Declarative description of `Board.moves`: for every occupied position,
the rule-table triples whose ending position is empty and whose jumped
position is occupied, in position order then rule order. -/
def movesSpec (b : Board) : List (Nat × Nat × Nat) :=
  b.occupied_positions.flatMap fun p =>
    (vmfpTable p).filter fun t => !(pinAt b t.2.1) && pinAt b t.2.2

/-- The update loop of Python `Board.transform(position_substitutions)`:
`prev` is the snapshot `prev_pins = self.pins.copy()` taken once before the
loop, `cur` the board being mutated.  Each pair `(prev_pos, new_pos)` is
validated and then `new_pos` receives the snapshot value at `prev_pos`.
Python mutates in place and a raise abandons the object mid-update; every
caller in the repository transforms a throwaway copy, and no claim concerns
the post-raise state, so the error case carries only the message. -/
def transformGo (prev : Fin 15 → Bool) :
    List (Nat × Nat) → (Fin 15 → Bool) → Except String (Fin 15 → Bool)
  | [], cur => .ok cur
  | (p, q) :: rest, cur =>
    match validatePos "prev_pos" p with
    | .error m => .error m
    | .ok _ =>
      match validatePos "new_pos" q with
      | .error m => .error m
      | .ok fq =>
        match validatePos "position" p with
        | .error m => .error m
        | .ok fp =>
          transformGo prev rest (Function.update cur fq (prev fp))

/-- Python `Board.transform(position_substitutions)`. -/
def Board.transform (b : Board) (subs : List (Nat × Nat)) :
    Except String Board :=
  match transformGo b.pins subs b.pins with
  | .error m => .error m
  | .ok f => .ok ⟨f⟩

/-- Substitution list of the `'Reflection'` transformation. -/
def reflectionPairs : List (Nat × Nat) :=
  [(0, 4), (1, 3), (2, 2), (3, 1), (4, 0),
   (5, 8), (6, 7), (7, 6), (8, 5),
   (9, 11), (10, 10), (11, 9),
   (12, 13), (13, 12),
   (14, 14)]

/-- Substitution list of the `'Clockwise rotation'` transformation. -/
def clockwisePairs : List (Nat × Nat) :=
  [(0, 14), (1, 12), (2, 9), (3, 5), (4, 0),
   (5, 13), (6, 10), (7, 6), (8, 1),
   (9, 11), (10, 7), (11, 2),
   (12, 8), (13, 3),
   (14, 4)]

/-- Substitution list of the `'Counter-clockwise rotation'` transformation. -/
def counterClockwisePairs : List (Nat × Nat) :=
  [(0, 4), (1, 8), (2, 11), (3, 13), (4, 14),
   (5, 3), (6, 7), (7, 10), (8, 12),
   (9, 2), (10, 6), (11, 9),
   (12, 1), (13, 5),
   (14, 0)]

/-- Substitution list of `'Clockwise rotation and reflection'`. -/
def clockwiseReflectionPairs : List (Nat × Nat) :=
  [(0, 0), (1, 5), (2, 9), (3, 12), (4, 14),
   (5, 1), (6, 6), (7, 10), (8, 13),
   (9, 2), (10, 7), (11, 11),
   (12, 3), (13, 8),
   (14, 4)]

/-- Substitution list of `'Counter-clockwise rotation and reflection'`. -/
def counterClockwiseReflectionPairs : List (Nat × Nat) :=
  [(0, 14), (1, 13), (2, 11), (3, 8), (4, 4),
   (5, 12), (6, 10), (7, 7), (8, 3),
   (9, 9), (10, 6), (11, 2),
   (12, 5), (13, 1),
   (14, 0)]

/-- Python `Board.valid_transformations()` (static): the five named symmetry
transformations, each a list of `(from, to)` position substitutions,
in the fixed order the source returns them. -/
def Board.valid_transformations : List (String × List (Nat × Nat)) :=
  [ ("Reflection", reflectionPairs),
    ("Clockwise rotation", clockwisePairs),
    ("Counter-clockwise rotation", counterClockwisePairs),
    ("Clockwise rotation and reflection", clockwiseReflectionPairs),
    ("Counter-clockwise rotation and reflection",
      counterClockwiseReflectionPairs) ]

/-- The spec's notion of a valid permutation for `apply_transformation`:
every one of the 15 positions appears exactly once as a `from` and exactly
once as a `to`.  (This is a specification-side predicate used to state
claims about `Board.transform`; the source never checks it.) -/
def isPermPairs (subs : List (Nat × Nat)) : Prop :=
  List.Perm (subs.map Prod.fst) (List.range 15) ∧
    List.Perm (subs.map Prod.snd) (List.range 15)

instance (subs : List (Nat × Nat)) : Decidable (isPermPairs subs) :=
  inferInstanceAs (Decidable (_ ∧ _))

/-- Net effect of the `transformGo` update loop, expressed as a pure fold
(used to reason about `Board.transform`; out-of-range indices are wrapped
only to make the fold total — on the in-range lists of the source, the
wrap never fires because `transformGo` has already errored otherwise). -/
def writeAll (prev : Fin 15 → Bool) (subs : List (Nat × Nat))
    (cur : Fin 15 → Bool) : Fin 15 → Bool :=
  subs.foldl
    (fun c pq =>
      if h : pq.1 ≤ 14 ∧ pq.2 ≤ 14 then
        Function.update c ⟨pq.2, by omega⟩ (prev ⟨pq.1, by omega⟩)
      else c) cur

/-- Python `Board.from_configuration_id(conf_id)` (classmethod): formats
`conf_id` as a binary string padded to 15 characters (`'{:015b}'`), then
writes each character into the corresponding position, most significant
bit first, so position `p` receives bit `14 - p` of the id.  For
`conf_id >= 2^15` the string is longer than 15 characters and the loop
reaches `set_pin_status(15, ...)`, whose validation raises. -/
def Board.from_configuration_id (conf_id : Nat) : Except String Board :=
  if conf_id < 2 ^ 15 then
    .ok ⟨fun p => conf_id.testBit (14 - p.val)⟩
  else
    .error "position out of range (must be 0 through 14)"

/-- Python `Board.__str__`: the 15 pin statuses as characters `'1'`/`'0'`
in position order; modelled as the underlying list of booleans. -/
def boardStr (b : Board) : List Bool :=
  (List.finRange 15).map b.pins

/-- Python `int(str(board), 2)` (the persisted configuration id, computed
in `commands.save_boards`): the binary string read as a number, most
significant bit = position 0. -/
def configId (b : Board) : Nat :=
  (boardStr b).foldl (fun acc c => 2 * acc + (if c then 1 else 0)) 0

/-- The inner `for start, end, jump in moves` loop shared verbatim by
`core.increment_boards` and `commands.increment_boards`: copy the parent
board, execute the move on the copy, and classify the child as won or
still-active.  A raise from `move` propagates. -/
def expandBoardMoves (b : Board) :
    List (Nat × Nat × Nat) → Except String (List Board × List Board)
  | [] => .ok ([], [])
  | (s, e, j) :: rest =>
    match Board.move (Board.copy b) s e j with
    | (_, some m) => .error m
    | (nb, none) =>
      match expandBoardMoves b rest with
      | .error m => .error m
      | .ok (ns, ws) =>
        if nb.is_won then .ok (ns, nb :: ws) else .ok (nb :: ns, ws)

/-- Python `commands.increment_boards(boards)`: expands every board of the
frontier; boards with no available moves are collected as lost (dead-end)
boards, children are partitioned into still-active and won boards.  Returns
`(new_boards, won_boards, lost_boards)`. -/
def increment_boards : List Board →
    Except String (List Board × List Board × List Board)
  | [] => .ok ([], [], [])
  | b :: rest =>
    match Board.moves b with
    | .error m => .error m
    | .ok mvs =>
      if mvs.length < 1 then
        match increment_boards rest with
        | .error m => .error m
        | .ok (n, w, l) => .ok (n, w, b :: l)
      else
        match expandBoardMoves b mvs with
        | .error m => .error m
        | .ok (nb, wb) =>
          match increment_boards rest with
          | .error m => .error m
          | .ok (n, w, l) => .ok (nb ++ n, wb ++ w, l)

/-- Python `core.increment_boards(boards)`: same expansion, but a board with
no available moves is silently dropped (`continue`) — dead ends are not
collected — and only `(new_boards, won_boards)` is returned. -/
def increment_boards_core : List Board →
    Except String (List Board × List Board)
  | [] => .ok ([], [])
  | b :: rest =>
    match Board.moves b with
    | .error m => .error m
    | .ok mvs =>
      if mvs.length < 1 then increment_boards_core rest
      else
        match expandBoardMoves b mvs with
        | .error m => .error m
        | .ok (nb, wb) =>
          match increment_boards_core rest with
          | .error m => .error m
          | .ok (n, w) => .ok (nb ++ n, wb ++ w)

/-- The `while boards:` loop of `commands.solve`: each generation replaces
the frontier and extends the accumulated won and lost lists (the Python
`if new_won_boards:` guards are no-ops, since extending by an empty list
changes nothing).  The loop has no bound in Python; here it carries fuel,
and `none` marks fuel exhaustion (proved unreachable for enough fuel). -/
def solveLoop : Nat → List Board → List Board → List Board →
    Option (Except String (List Board × List Board))
  | _, [], won, lost => some (.ok (won, lost))
  | 0, _ :: _, _, _ => none
  | fuel + 1, b :: bs, won, lost =>
    match increment_boards (b :: bs) with
    | .error m => some (.error m)
    | .ok (nb, w, l) => solveLoop fuel nb (won ++ w) (lost ++ l)

/-- The `while len(boards) > 0:` loop of `core.find_solutions`: note that
`boards, won_boards = increment_boards(boards)` rebinds `won_boards`, so
each generation discards the previous generation's won boards instead of
accumulating them, and `core.increment_boards` never returns dead ends. -/
def find_solutions_loop : Nat → List Board → List Board →
    Option (Except String (List Board))
  | _, [], won => some (.ok won)
  | 0, _ :: _, _ => none
  | fuel + 1, b :: bs, _ =>
    match increment_boards_core (b :: bs) with
    | .error m => some (.error m)
    | .ok (nb, w) => find_solutions_loop fuel nb w

/-- Total wrapper for `increment_boards` (which provably never errors);
used to describe the generations of the search declaratively. -/
def incrementP (bs : List Board) : List Board × List Board × List Board :=
  match increment_boards bs with
  | .ok t => t
  | .error _ => ([], [], [])

/-- Frontier after one generation step. -/
def nextFrontier (bs : List Board) : List Board := (incrementP bs).1

/-- Frontier after `n` generation steps starting from `bs`. -/
def frontierFrom (bs : List Board) : Nat → List Board
  | 0 => bs
  | n + 1 => nextFrontier (frontierFrom bs n)

/-- Won boards produced by generation step `i` of the search from `bs`. -/
def wonAt (bs : List Board) (i : Nat) : List Board :=
  (incrementP (frontierFrom bs i)).2.1

/-- Dead-end boards produced by generation step `i` of the search. -/
def lostAt (bs : List Board) (i : Nat) : List Board :=
  (incrementP (frontierFrom bs i)).2.2

/-- Largest peg count of any board in a frontier (0 for an empty one). -/
def maxPegs (bs : List Board) : Nat :=
  bs.foldr (fun b acc => max (pegCount b) acc) 0

/-- A two-peg board (pins at 0 and 4 only) with no available moves: a
dead end that is not won. -/
def deadEndPair : Board :=
  ⟨fun p => p.val == 0 || p.val == 4⟩

/-- Result of Python `core.consolidate_solutions`: the function either
returns the grouped solution sets, or — when some board is not won —
returns (not raises) a `ValueError` object, modelled by the `valueError`
constructor carrying the offending board (the Python message embeds
`repr(board)`, which contains the CPython object address and is therefore
not modelled beyond the board itself). -/
inductive ConsolidateResult where
  | valueError (b : Board)
  | solutionSets (sets : List (List Board))
deriving DecidableEq

/-- The `for solution_set in solution_sets: ... else:` grouping loop of
`consolidate_solutions`: append the board to the first group whose first
element equals it, or start a new group at the end (the `for`/`else`).
Groups are created nonempty and only ever grow, so the `[] :: rest` case
(where Python's `solution_set[0]` would raise `IndexError`) is unreachable;
it is mapped to "no match" to keep the function total. -/
def addToSolutionSets (b : Board) : List (List Board) → List (List Board)
  | [] => [[b]]
  | (x :: xs) :: rest =>
    if b = x then (x :: xs ++ [b]) :: rest
    else (x :: xs) :: addToSolutionSets b rest
  | [] :: rest => [] :: addToSolutionSets b rest

/-- Python `core.consolidate_solutions(boards)`: the first loop returns a
`ValueError` object at the first board that is not won; otherwise the
second loop groups boards by equality with each group's first element. -/
def consolidate_solutions (boards : List Board) : ConsolidateResult :=
  match boards.find? (fun b => !b.is_won) with
  | some b => .valueError b
  | none =>
    .solutionSets (boards.foldl (fun sets b => addToSolutionSets b sets) [])

/-- A row of the `transformations` table written by
`commands.findtransformations`: from-configuration id, matched unique
configuration id, and the transformation's name. -/
structure TransformationEdge where
  from_conf : Nat
  to_conf : Nat
  desc : String
deriving DecidableEq

/-- The `for unique_conf, unique_board in unique_configurations` scan inside
`commands.check_transformation`: first entry whose board equals the
transformed board, in insertion order. -/
def scanUniques (t_board : Board) : List (Nat × Board) → Option Nat
  | [] => none
  | (c, ub) :: rest =>
    if t_board = ub then some c else scanUniques t_board rest

/-- Python `commands.check_transformation(board, tx, unique_configurations)`:
transform a copy of the board, then scan the unique configurations for the
first equal board, returning its configuration (or `None`). -/
def check_transformation (b : Board) (tx : List (Nat × Nat))
    (uniques : List (Nat × Board)) : Except String (Option Nat) :=
  match Board.transform (Board.copy b) tx with
  | .error m => .error m
  | .ok t => .ok (scanUniques t uniques)

/-- The `for desc, tx in Board.valid_transformations()` loop of
`commands.findtransformations` for one working configuration `conf`: each
matching transformation clears the `unique` flag and adds one
`Transformation` row; there is no `break`, so the loop continues past a
match and can record several edges. -/
def scanTransformations (conf : Nat) (b : Board)
    (uniques : List (Nat × Board)) :
    List (String × List (Nat × Nat)) →
    Except String (Bool × List TransformationEdge)
  | [] => .ok (true, [])
  | (d, tx) :: rest =>
    match check_transformation b tx uniques with
    | .error m => .error m
    | .ok matched =>
      match scanTransformations conf b uniques rest with
      | .error m => .error m
      | .ok (u, es) =>
        match matched with
        | some c => .ok (false, ⟨conf, c, d⟩ :: es)
        | none => .ok (u, es)

/-- Python `commands.findtransformations` main loop over all stored
configuration ids: reconstruct each board, test it against the accumulated
unique configurations under the five transformations (skipped while the
unique list is empty), record the edges, and append the configuration to
the unique list when no transformation matched. -/
def findtransformations : List Nat → List (Nat × Board) →
    List TransformationEdge →
    Except String (List (Nat × Board) × List TransformationEdge)
  | [], uniques, edges => .ok (uniques, edges)
  | c :: rest, uniques, edges =>
    match Board.from_configuration_id c with
    | .error m => .error m
    | .ok b =>
      match
        (if uniques.isEmpty then .ok (true, [])
         else scanTransformations c b uniques Board.valid_transformations :
          Except String (Bool × List TransformationEdge)) with
      | .error m => .error m
      | .ok (u, es) =>
        findtransformations rest
          (if u then uniques ++ [(c, b)] else uniques) (edges ++ es)

/-- Declarative description of what one transformation contributes for a
working board: the first unique entry (in insertion order) whose board
equals the transformed board, or nothing when the transformation errors
(never the case for the five in-range tables). -/
def firstMatch (b : Board) (tx : List (Nat × Nat))
    (uniques : List (Nat × Board)) : Option Nat :=
  match Board.transform (Board.copy b) tx with
  | .error _ => none
  | .ok t => (uniques.find? fun q => q.2 == t).map Prod.fst

/-! ### Helper lemmas: validation, pin access, and the move machinery -/

theorem validatePos_ok (name : String) {p : Nat} (hlt : p < 15) :
    validatePos name p = .ok ⟨p, hlt⟩ := by
  unfold validatePos
  rw [dif_pos (show p ≤ 14 by omega)]

theorem pinAt_eq (b : Board) {p : Nat} (hlt : p < 15) :
    pinAt b p = b.pins ⟨p, hlt⟩ := by
  unfold pinAt
  congr 1
  exact Fin.ext (Nat.mod_eq_of_lt hlt)

theorem pin_status_ok (b : Board) {p : Nat} (h : p ≤ 14) :
    b.pin_status p = .ok (pinAt b p) := by
  have hlt : p < 15 := by omega
  unfold Board.pin_status
  rw [validatePos_ok _ hlt, pinAt_eq b hlt]

theorem vmfpTable_fin_sound : ∀ p : Fin 15, ∀ t ∈ vmfpTable p.val,
    t.1 = p.val ∧ t.1 ≤ 14 ∧ t.2.1 ≤ 14 ∧ t.2.2 ≤ 14 ∧
    t.1 ≠ t.2.1 ∧ t.1 ≠ t.2.2 ∧ t.2.1 ≠ t.2.2 := by decide

theorem vmfpTable_sound {p : Nat} (h : p ≤ 14) : ∀ t ∈ vmfpTable p,
    t.1 = p ∧ t.1 ≤ 14 ∧ t.2.1 ≤ 14 ∧ t.2.2 ≤ 14 ∧
    t.1 ≠ t.2.1 ∧ t.1 ≠ t.2.2 ∧ t.2.1 ≠ t.2.2 :=
  vmfpTable_fin_sound ⟨p, by omega⟩

theorem valid_moves_for_position_ok {p : Nat} (h : p ≤ 14) :
    Board.valid_moves_for_position p = .ok (vmfpTable p) := by
  unfold Board.valid_moves_for_position
  rw [validatePos_ok _ (show p < 15 by omega)]

theorem movesGo_eq (b : Board) (l : List (Nat × Nat × Nat))
    (h : ∀ t ∈ l, t.2.1 ≤ 14 ∧ t.2.2 ≤ 14) :
    movesGo b l = .ok (l.filter fun t => !(pinAt b t.2.1) && pinAt b t.2.2) := by
  induction l with
  | nil => rfl
  | cons t rest ih =>
    obtain ⟨s, e, j⟩ := t
    have he := (h (s, e, j) (by simp)).1
    have hj := (h (s, e, j) (by simp)).2
    have ih' := ih fun u hu => h u (by simp [hu])
    simp only [movesGo, bind, Except.bind, pin_status_ok b he, pin_status_ok b hj, ih']
    cases hpe : pinAt b e
    · cases hpj : pinAt b j
      · simp [List.filter_cons, hpe, hpj]
      · simp [List.filter_cons, hpe, hpj]
    · simp [List.filter_cons, hpe]

theorem moves_for_position_eq (b : Board) {p : Nat} (h : p ≤ 14) :
    b.moves_for_position p = .ok
      (if pinAt b p then
        (vmfpTable p).filter fun t => !(pinAt b t.2.1) && pinAt b t.2.2
      else []) := by
  have hlt : p < 15 := by omega
  have step : b.moves_for_position p =
      (if b.pins ⟨p, hlt⟩ = false then Except.ok [] else do
        let table ← Board.valid_moves_for_position p
        movesGo b table) := by
    unfold Board.moves_for_position
    rw [validatePos_ok _ hlt]
  rw [step, pinAt_eq b hlt]
  cases hp : b.pins ⟨p, hlt⟩
  · simp
  · rw [if_neg (by decide : ¬(true = false)), if_pos rfl,
      valid_moves_for_position_ok h]
    exact movesGo_eq b _ fun t ht => ⟨(vmfpTable_sound h t ht).2.2.1,
      (vmfpTable_sound h t ht).2.2.2.1⟩

theorem mem_occupied {b : Board} {p : Nat} (hp : p ∈ b.occupied_positions) :
    p ≤ 14 ∧ pinAt b p = true := by
  unfold Board.occupied_positions at hp
  simp only [List.mem_map, List.mem_filter] at hp
  obtain ⟨q, ⟨-, hq2⟩, hq3⟩ := hp
  subst hq3
  refine ⟨by omega, ?_⟩
  rw [pinAt_eq b (by omega)]
  simpa using hq2

theorem movesOuter_eq (b : Board) (ps : List Nat)
    (h : ∀ p ∈ ps, p ≤ 14 ∧ pinAt b p = true) :
    movesOuter b ps = .ok (ps.flatMap fun p =>
      (vmfpTable p).filter fun t => !(pinAt b t.2.1) && pinAt b t.2.2) := by
  induction ps with
  | nil => rfl
  | cons p rest ih =>
    have hp := h p (by simp)
    have ih' := ih fun q hq => h q (by simp [hq])
    simp only [movesOuter, bind, Except.bind, moves_for_position_eq b hp.1,
      hp.2, if_true, ih', List.flatMap_cons]

theorem moves_eq (b : Board) : b.moves = .ok (movesSpec b) := by
  unfold Board.moves movesSpec
  exact movesOuter_eq b _ fun p hp => mem_occupied hp

theorem move_eq (b : Board) {s e j : Nat} (hs : s < 15) (he : e < 15)
    (hj : j < 15) :
    Board.move b s e j =
      (if b.pins ⟨s, hs⟩ = false then (b, some "start is empty")
       else if b.pins ⟨e, he⟩ = true then (b, some "end is occupied")
       else if b.pins ⟨j, hj⟩ = false then (b, some "jump is empty")
       else (⟨Function.update (Function.update (Function.update b.pins ⟨s, hs⟩
         false) ⟨j, hj⟩ false) ⟨e, he⟩ true⟩, none)) := by
  unfold Board.move
  rw [validatePos_ok _ hs, validatePos_ok _ he, validatePos_ok _ hj]

theorem pegCount_update3 (f : Fin 15 → Bool) (s e j : Fin 15)
    (hs : f s = true) (he : f e = false) (hj : f j = true)
    (hse : s ≠ e) (hsj : s ≠ j) (hje : j ≠ e) :
    pegCount ⟨Function.update (Function.update (Function.update f s false) j
      false) e true⟩ + 1 = pegCount ⟨f⟩ := by
  have hset : (Finset.univ.filter fun p =>
      (Function.update (Function.update (Function.update f s false) j false) e
        true) p = true) =
      insert e ((((Finset.univ.filter fun p => f p = true)).erase s).erase j)
      := by
    ext q
    by_cases hqe : q = e
    · subst hqe
      simp [Function.update_apply]
    · by_cases hqj : q = j
      · subst hqj
        simp [Function.update_apply, hqe, Finset.mem_erase]
      · by_cases hqs : q = s
        · subst hqs
          simp [Function.update_apply, hqe, hqj, Finset.mem_erase]
        · simp [Function.update_apply, hqe, hqj, hqs, Finset.mem_erase]
  show (Finset.univ.filter _).card + 1 = (Finset.univ.filter _).card
  rw [hset]
  have he' : e ∉ ((((Finset.univ.filter fun p => f p = true)).erase s).erase j)
      := by
    simp [Finset.mem_erase, he]
  rw [Finset.card_insert_of_not_mem he']
  have hj' : j ∈ ((Finset.univ.filter fun p => f p = true)).erase s := by
    simp [Finset.mem_erase, hj, Ne.symm hsj]
  have hs' : s ∈ (Finset.univ.filter fun p => f p = true) := by simp [hs]
  rw [Finset.card_erase_add_one hj', Finset.card_erase_add_one hs']

/-- C10: every entry of the static move rule table starts at its own
position, consists of three pairwise distinct in-range positions, and has
its reversed counterpart `(end, start, jump)` in the table of `end`. -/
theorem move_table_symmetric : ∀ p : Fin 15,
    Board.valid_moves_for_position p.val = .ok (vmfpTable p.val) ∧
    ∀ t ∈ vmfpTable p.val, t.1 = p.val ∧
      (t.1 ≤ 14 ∧ t.2.1 ≤ 14 ∧ t.2.2 ≤ 14) ∧
      (t.1 ≠ t.2.1 ∧ t.1 ≠ t.2.2 ∧ t.2.1 ≠ t.2.2) ∧
      (t.2.1, t.1, t.2.2) ∈ vmfpTable t.2.1 := by decide

/-- Witness for `move_table_symmetric` at position 0 and its first rule
entry `(0, 2, 1)`, whose reversal `(2, 0, 1)` is in the table of 2. -/
theorem move_table_symmetric_witness :
    ((0 : Nat), (2 : Nat), (1 : Nat)) ∈ vmfpTable (0 : Fin 15).val ∧
    ((2 : Nat), (0 : Nat), (1 : Nat)) ∈ vmfpTable 2 :=
  ⟨by decide,
    ((move_table_symmetric 0).2 (0, 2, 1) (by decide)).2.2.2⟩

/-- C8: on a fresh board with `empty_position=14`, `moves()` returns exactly
`[(9, 14, 12), (11, 14, 13)]`, in that order. -/
theorem initial_board_moves :
    (Board.init 14 >>= Board.moves) = .ok [(9, 14, 12), (11, 14, 13)] := rfl

theorem move_success (b : Board) {s e j : Nat} (hs : s < 15) (he : e < 15)
    (hj : j < 15) (hps : b.pins ⟨s, hs⟩ = true) (hpe : b.pins ⟨e, he⟩ = false)
    (hpj : b.pins ⟨j, hj⟩ = true) :
    Board.move b s e j =
      (⟨Function.update (Function.update (Function.update b.pins ⟨s, hs⟩
        false) ⟨j, hj⟩ false) ⟨e, he⟩ true⟩, none) := by
  rw [move_eq b hs he hj]
  simp [hps, hpe, hpj]

/-- C4: for in-range `start`, `end`, `jump`, `move` raises exactly when the
start is empty, the end occupied, or the jump empty — leaving every pin
unchanged on that path — and otherwise raises nothing, clears `start` and
`jump`, sets `end`, and touches no other position. -/
theorem move_checks_and_updates (b : Board) (s e j : Nat)
    (hs : s ≤ 14) (he : e ≤ 14) (hj : j ≤ 14) :
    (¬ (pinAt b s = true ∧ pinAt b e = false ∧ pinAt b j = true) →
      (Board.move b s e j).1 = b ∧ (Board.move b s e j).2.isSome = true) ∧
    (pinAt b s = true → pinAt b e = false → pinAt b j = true →
      (Board.move b s e j).2 = none ∧
      pinAt (Board.move b s e j).1 s = false ∧
      pinAt (Board.move b s e j).1 j = false ∧
      pinAt (Board.move b s e j).1 e = true ∧
      ∀ q : Fin 15, q.val ≠ s → q.val ≠ e → q.val ≠ j →
        (Board.move b s e j).1.pins q = b.pins q) := by
  have hslt : s < 15 := by omega
  have helt : e < 15 := by omega
  have hjlt : j < 15 := by omega
  constructor
  · intro hcon
    rw [pinAt_eq b hslt, pinAt_eq b helt, pinAt_eq b hjlt] at hcon
    rw [move_eq b hslt helt hjlt]
    by_cases h1 : b.pins ⟨s, hslt⟩ = false
    · rw [if_pos h1]
      exact ⟨rfl, rfl⟩
    · by_cases h2 : b.pins ⟨e, helt⟩ = true
      · rw [if_neg h1, if_pos h2]
        exact ⟨rfl, rfl⟩
      · by_cases h3 : b.pins ⟨j, hjlt⟩ = false
        · rw [if_neg h1, if_neg h2, if_pos h3]
          exact ⟨rfl, rfl⟩
        · exact absurd ⟨by simpa using h1, by simpa using h2, by simpa using h3⟩
            hcon
  · intro h1 h2 h3
    rw [pinAt_eq b hslt] at h1
    rw [pinAt_eq b helt] at h2
    rw [pinAt_eq b hjlt] at h3
    have hse : (⟨s, hslt⟩ : Fin 15) ≠ ⟨e, helt⟩ := by
      intro hc
      rw [hc, h2] at h1
      exact Bool.noConfusion h1
    have hje : (⟨j, hjlt⟩ : Fin 15) ≠ ⟨e, helt⟩ := by
      intro hc
      rw [hc, h2] at h3
      exact Bool.noConfusion h3
    rw [move_success b hslt helt hjlt h1 h2 h3]
    refine ⟨rfl, ?_, ?_, ?_, ?_⟩
    · rw [pinAt_eq _ hslt]
      show Function.update (Function.update (Function.update b.pins _ false) _
        false) _ true _ = false
      have hje' : ¬ j = e := by simpa [Fin.ext_iff] using hje
      by_cases hsj : (⟨s, hslt⟩ : Fin 15) = ⟨j, hjlt⟩
      · simp [Function.update_apply, hse, hsj, hje']
      · simp [Function.update_apply, hse, hsj]
    · rw [pinAt_eq _ hjlt]
      show Function.update (Function.update (Function.update b.pins _ false) _
        false) _ true _ = false
      simp [Function.update_apply, hje]
    · rw [pinAt_eq _ helt]
      show Function.update (Function.update (Function.update b.pins _ false) _
        false) _ true _ = true
      rw [Function.update_same]
    · intro q hq1 hq2 hq3
      show Function.update (Function.update (Function.update b.pins _ false) _
        false) _ true _ = b.pins q
      have f1 : q ≠ ⟨e, helt⟩ := by simp [Fin.ext_iff, hq2]
      have f2 : q ≠ ⟨j, hjlt⟩ := by simp [Fin.ext_iff, hq3]
      have f3 : q ≠ ⟨s, hslt⟩ := by simp [Fin.ext_iff, hq1]
      simp only [Function.update_apply, if_neg f1, if_neg f2, if_neg f3]

/-- Witness for `move_checks_and_updates`: the legal move `(9, 14, 12)` on a
fresh board with position 14 empty succeeds and fills position 14. -/
theorem move_checks_and_updates_witness :
    (Board.move ⟨fun p => !(p == 14)⟩ 9 14 12).2 = none ∧
    pinAt (Board.move ⟨fun p => !(p == 14)⟩ 9 14 12).1 14 = true := by
  have h := (move_checks_and_updates ⟨fun p => !(p == 14)⟩ 9 14 12
    (by omega) (by omega) (by omega)).2 (by decide) (by decide) (by decide)
  exact ⟨h.1, h.2.2.2.1⟩

theorem movesSpec_mem_succeeds (b : Board) : ∀ t ∈ movesSpec b,
    (Board.move b t.1 t.2.1 t.2.2).2 = none ∧
    pegCount (Board.move b t.1 t.2.1 t.2.2).1 + 1 = pegCount b := by
  intro t ht
  unfold movesSpec at ht
  rw [List.mem_flatMap] at ht
  obtain ⟨p, hpocc, htf⟩ := ht
  obtain ⟨hp14, hppin⟩ := mem_occupied hpocc
  rw [List.mem_filter] at htf
  obtain ⟨htm, hcond⟩ := htf
  obtain ⟨s, e, j⟩ := t
  obtain ⟨hs_eq, -, he14, hj14, hne1, hne2, hne3⟩ := vmfpTable_sound hp14 _ htm
  simp only at hs_eq he14 hj14 hne1 hne2 hne3
  subst hs_eq
  simp only [Bool.and_eq_true, Bool.not_eq_eq_eq_not, Bool.not_true] at hcond
  have hs14 : s ≤ 14 := hp14
  have hslt : s < 15 := by omega
  have helt : e < 15 := by omega
  have hjlt : j < 15 := by omega
  have hps : b.pins ⟨s, hslt⟩ = true := by rw [← pinAt_eq b hslt]; exact hppin
  have hpe : b.pins ⟨e, helt⟩ = false := by
    rw [← pinAt_eq b helt]
    simpa using hcond.1
  have hpj : b.pins ⟨j, hjlt⟩ = true := by
    rw [← pinAt_eq b hjlt]
    simpa using hcond.2
  rw [move_success b hslt helt hjlt hps hpe hpj]
  refine ⟨rfl, ?_⟩
  exact pegCount_update3 b.pins ⟨s, hslt⟩ ⟨e, helt⟩ ⟨j, hjlt⟩ hps hpe hpj
    (by simp [Fin.ext_iff, hne1]) (by simp [Fin.ext_iff, hne2])
    (by simp [Fin.ext_iff, Ne.symm hne3])

/-- C5: every triple in the list returned by `moves()` can be executed by
`move` without raising, and executing it reduces the number of occupied
positions by exactly one. -/
theorem available_moves_succeed (b : Board) (ms : List (Nat × Nat × Nat))
    (hms : b.moves = .ok ms) : ∀ t ∈ ms,
    (Board.move b t.1 t.2.1 t.2.2).2 = none ∧
    pegCount (Board.move b t.1 t.2.1 t.2.2).1 + 1 = pegCount b := by
  rw [moves_eq] at hms
  injection hms with hms
  subst hms
  exact movesSpec_mem_succeeds b

/-- Witness for `available_moves_succeed`: the fresh board with position 14
empty has `(9, 14, 12)` among its moves; executing it raises nothing and
drops the peg count from 14 to 13. -/
theorem available_moves_succeed_witness :
    (Board.move ⟨fun p => !(p == 14)⟩ 9 14 12).2 = none ∧
    pegCount (Board.move ⟨fun p => !(p == 14)⟩ 9 14 12).1 + 1 =
      pegCount ⟨fun p => !(p == 14)⟩ :=
  available_moves_succeed ⟨fun p => !(p == 14)⟩ [(9, 14, 12), (11, 14, 13)]
    (by decide) (9, 14, 12) (by decide)

theorem testBit_as_div (x k : Nat) :
    (if x.testBit k then 1 else 0) = x / 2 ^ k % 2 := by
  rw [Nat.testBit_to_div_mod]
  rcases Nat.mod_two_eq_zero_or_one (x / 2 ^ k) with h | h <;> simp [h]

theorem foldl_bits (n : Nat) : ∀ (x a : Nat), x < 2 ^ n →
    ((List.range n).map fun i => x.testBit (n - 1 - i)).foldl
      (fun acc c => 2 * acc + (if c then 1 else 0)) a = a * 2 ^ n + x := by
  induction n with
  | zero =>
    intro x a hx
    have : x = 0 := by omega
    subst this
    simp
  | succ n ih =>
    intro x a hx
    rw [List.range_succ_eq_map, List.map_cons, List.foldl_cons, List.map_map]
    have hmap : (List.range n).map ((fun i => x.testBit (n + 1 - 1 - i)) ∘
        Nat.succ) = (List.range n).map fun i => (x % 2 ^ n).testBit (n - 1 - i)
        := by
      apply List.map_congr_left
      intro i hi
      rw [List.mem_range] at hi
      have h2 : n - 1 - i < n := by omega
      simp only [Function.comp_apply]
      rw [show n + 1 - 1 - (i + 1) = n - 1 - i by omega,
        Nat.testBit_mod_two_pow]
      simp [h2]
    rw [hmap, ih (x % 2 ^ n) _ (Nat.mod_lt _ (by positivity))]
    have hq : x / 2 ^ n < 2 := by
      apply Nat.div_lt_of_lt_mul
      calc x < 2 ^ (n + 1) := hx
        _ = 2 ^ n * 2 := by rw [pow_succ]
    have hh : n + 1 - 1 - 0 = n := by omega
    rw [hh, testBit_as_div, Nat.mod_eq_of_lt hq]
    conv_rhs => rw [← Nat.div_add_mod x (2 ^ n)]
    rw [pow_succ]
    ring

/-- C6: for every 15-bit configuration id, decoding it into a board and
re-encoding the board through the binary-string representation yields the
same id (most significant bit = position 0). -/
theorem configuration_id_roundtrip (x : Nat) (hx : x < 2 ^ 15) :
    ∃ b, Board.from_configuration_id x = .ok b ∧ configId b = x := by
  refine ⟨⟨fun p => x.testBit (14 - p.val)⟩, ?_, ?_⟩
  · rw [Board.from_configuration_id, if_pos hx]
  · rw [configId,
      show boardStr ⟨fun p => x.testBit (14 - p.val)⟩ =
        (List.range 15).map (fun i => x.testBit (15 - 1 - i)) from rfl,
      foldl_bits 15 x 0 hx]
    simp

/-- Witness for `configuration_id_roundtrip` at the id 12345. -/
theorem configuration_id_roundtrip_witness :
    ∃ b, Board.from_configuration_id 12345 = .ok b ∧ configId b = 12345 :=
  configuration_id_roundtrip 12345 (by norm_num)

/-- C9: when some input board is not won, `consolidate_solutions` returns a
`ValueError` object as its result value (it raises nothing, the grouping
loop is never reached, and the caller receives the error object in place of
the solution sets). -/
theorem consolidate_returns_value_error (boards : List Board)
    (h : ∃ b ∈ boards, b.is_won = false) :
    ∃ b', consolidate_solutions boards = .valueError b' ∧ b' ∈ boards ∧
      b'.is_won = false := by
  have hsome : (boards.find? fun b => !b.is_won).isSome := by
    rw [List.find?_isSome]
    obtain ⟨b, hb, hw⟩ := h
    exact ⟨b, hb, by simp [hw]⟩
  obtain ⟨b', hb'⟩ := Option.isSome_iff_exists.mp hsome
  refine ⟨b', ?_, List.mem_of_find?_eq_some hb', ?_⟩
  · unfold consolidate_solutions
    rw [hb']
  · have := List.find?_some hb'
    simpa using this

/-- Witness for `consolidate_returns_value_error` on the two-peg dead-end
board, which is not won. -/
theorem consolidate_returns_value_error_witness :
    ∃ b', consolidate_solutions [deadEndPair] = .valueError b' ∧
      b' ∈ [deadEndPair] ∧ b'.is_won = false :=
  consolidate_returns_value_error [deadEndPair]
    ⟨deadEndPair, by simp, by decide⟩

/-! ### Helper lemmas: the transformation machinery -/

theorem validatePos_err (name : String) {p : Nat} (h : 14 < p) :
    validatePos name p =
      .error (name ++ " out of range (must be 0 through 14)") := by
  unfold validatePos
  rw [dif_neg (by omega)]

theorem transformGo_ok (prev : Fin 15 → Bool) :
    ∀ (subs : List (Nat × Nat)) (cur : Fin 15 → Bool),
    (∀ pq ∈ subs, pq.1 ≤ 14 ∧ pq.2 ≤ 14) →
    transformGo prev subs cur = .ok (writeAll prev subs cur)
  | [], cur, _ => rfl
  | (p, q) :: rest, cur, h => by
    have hp := (h (p, q) (by simp)).1
    have hq := (h (p, q) (by simp)).2
    have hplt : p < 15 := by omega
    have hqlt : q < 15 := by omega
    simp only [transformGo]
    rw [validatePos_ok _ hplt, validatePos_ok _ hqlt, validatePos_ok _ hplt]
    show transformGo prev rest
        (Function.update cur ⟨q, hqlt⟩ (prev ⟨p, hplt⟩)) = _
    rw [transformGo_ok prev rest _ (fun u hu => h u (by simp [hu]))]
    simp only [writeAll, List.foldl_cons]
    rw [dif_pos (⟨hp, hq⟩ : p ≤ 14 ∧ q ≤ 14)]

theorem transformGo_err (prev : Fin 15 → Bool) :
    ∀ (subs : List (Nat × Nat)) (cur : Fin 15 → Bool),
    (∃ pq ∈ subs, 14 < pq.1 ∨ 14 < pq.2) →
    ∃ m, transformGo prev subs cur = .error m
  | [], _, h => by simp at h
  | (p, q) :: rest, cur, h => by
    by_cases hp : p ≤ 14
    · by_cases hq : q ≤ 14
      · have hplt : p < 15 := by omega
        have hqlt : q < 15 := by omega
        simp only [transformGo]
        rw [validatePos_ok _ hplt, validatePos_ok _ hqlt,
          validatePos_ok _ hplt]
        show ∃ m, transformGo prev rest
          (Function.update cur ⟨q, hqlt⟩ (prev ⟨p, hplt⟩)) = .error m
        apply transformGo_err prev rest
        obtain ⟨pq, hpq, hoob⟩ := h
        rcases List.mem_cons.mp hpq with hhd | htl
        · subst hhd
          simp at hoob
          omega
        · exact ⟨pq, htl, hoob⟩
      · refine ⟨"new_pos out of range (must be 0 through 14)", ?_⟩
        unfold transformGo
        rw [validatePos_ok _ (show p < 15 by omega),
          validatePos_err _ (show 14 < q by omega)]
        rfl
    · refine ⟨"prev_pos out of range (must be 0 through 14)", ?_⟩
      unfold transformGo
      rw [validatePos_err _ (show 14 < p by omega)]
      rfl

theorem writeAll_preserve (prev : Fin 15 → Bool) :
    ∀ (subs : List (Nat × Nat)) (cur : Fin 15 → Bool) (r : Fin 15),
    (∀ pq ∈ subs, pq.2 ≠ r.val) →
    writeAll prev subs cur r = cur r
  | [], _, _, _ => rfl
  | (p, q) :: rest, cur, r, h => by
    have hrec := writeAll_preserve prev rest
    simp only [writeAll, List.foldl_cons]
    by_cases hpq : p ≤ 14 ∧ q ≤ 14
    · rw [dif_pos hpq]
      rw [show List.foldl _ _ rest = writeAll prev rest _ from rfl]
      rw [hrec _ _ (fun u hu => h u (by simp [hu]))]
      exact Function.update_noteq
        (by simp [Fin.ext_iff]; exact fun hc => h (p, q) (by simp) (by simp [hc]))
        _ _
    · rw [dif_neg hpq]
      rw [show List.foldl _ _ rest = writeAll prev rest _ from rfl]
      exact hrec _ _ (fun u hu => h u (by simp [hu]))

theorem writeAll_sets (prev : Fin 15 → Bool) :
    ∀ (subs : List (Nat × Nat)) (cur : Fin 15 → Bool),
    (subs.map Prod.snd).Nodup →
    ∀ p q : Nat, (p, q) ∈ subs → ∀ (hp : p < 15) (hq : q < 15),
    writeAll prev subs cur ⟨q, hq⟩ = prev ⟨p, hp⟩
  | [], _, _, p, q, hmem, _, _ => by simp at hmem
  | (p0, q0) :: rest, cur, hnd, p, q, hmem, hp, hq => by
    simp only [List.map_cons, List.nodup_cons] at hnd
    rcases List.mem_cons.mp hmem with hhd | htl
    · rw [Prod.ext_iff] at hhd
      obtain ⟨hp0, hq0⟩ := hhd
      simp only at hp0 hq0
      subst hp0
      subst hq0
      simp only [writeAll, List.foldl_cons]
      rw [dif_pos (⟨by omega, by omega⟩ : p ≤ 14 ∧ q ≤ 14)]
      rw [show List.foldl _ _ rest = writeAll prev rest
        (Function.update cur ⟨q, by omega⟩ (prev ⟨p, by omega⟩)) from rfl]
      rw [writeAll_preserve prev rest _ _ (fun pq hpq hc => hnd.1 (by
        rw [show ((⟨q, hq⟩ : Fin 15)).val = q from rfl] at hc
        rw [← hc]
        exact List.mem_map_of_mem Prod.snd hpq))]
      rw [Function.update_same]
    · simp only [writeAll, List.foldl_cons]
      by_cases hok : p0 ≤ 14 ∧ q0 ≤ 14
      · rw [dif_pos hok]
        exact writeAll_sets prev rest _ hnd.2 p q htl hp hq
      · rw [dif_neg hok]
        exact writeAll_sets prev rest _ hnd.2 p q htl hp hq

theorem transform_ok (b : Board) (subs : List (Nat × Nat))
    (h : ∀ pq ∈ subs, pq.1 ≤ 14 ∧ pq.2 ≤ 14) :
    Board.transform b subs = .ok ⟨writeAll b.pins subs b.pins⟩ := by
  unfold Board.transform
  rw [transformGo_ok b.pins subs b.pins h]

/-- C3 (amended): `transform` raises exactly when some substitution mentions
an out-of-range position — it never checks that the pairs form a
permutation — and on every valid permutation it succeeds, computing each
target occupancy from the single pre-transform snapshot. -/
theorem transform_range_and_snapshot (b : Board) (subs : List (Nat × Nat)) :
    ((∃ m, Board.transform b subs = .error m) ↔
      ∃ pq ∈ subs, 14 < pq.1 ∨ 14 < pq.2) ∧
    (isPermPairs subs → ∃ b', Board.transform b subs = .ok b' ∧
      ∀ pq ∈ subs, pinAt b' pq.2 = pinAt b pq.1) := by
  constructor
  · constructor
    · rintro ⟨m, hm⟩
      by_contra hno
      push_neg at hno
      rw [transform_ok b subs (fun pq hpq => ⟨(hno pq hpq).1, (hno pq hpq).2⟩)]
        at hm
      exact Except.noConfusion hm
    · intro hex
      obtain ⟨m, hm⟩ := transformGo_err b.pins subs b.pins hex
      refine ⟨m, ?_⟩
      unfold Board.transform
      rw [hm]
  · intro hperm
    have hrange : ∀ pq ∈ subs, pq.1 ≤ 14 ∧ pq.2 ≤ 14 := by
      intro pq hpq
      constructor
      · have h1 : pq.1 ∈ subs.map Prod.fst := List.mem_map_of_mem _ hpq
        have h2 := hperm.1.mem_iff.mp h1
        rw [List.mem_range] at h2
        omega
      · have h1 : pq.2 ∈ subs.map Prod.snd := List.mem_map_of_mem _ hpq
        have h2 := hperm.2.mem_iff.mp h1
        rw [List.mem_range] at h2
        omega
    refine ⟨⟨writeAll b.pins subs b.pins⟩, transform_ok b subs hrange, ?_⟩
    intro pq hpq
    have hnd : (subs.map Prod.snd).Nodup :=
      hperm.2.nodup_iff.mpr (List.nodup_range 15)
    have hp15 : pq.1 < 15 := by have := (hrange pq hpq).1; omega
    have hq15 : pq.2 < 15 := by have := (hrange pq hpq).2; omega
    rw [pinAt_eq _ hq15, pinAt_eq b hp15]
    show writeAll b.pins subs b.pins ⟨pq.2, hq15⟩ = b.pins ⟨pq.1, hp15⟩
    exact writeAll_sets b.pins subs b.pins hnd pq.1 pq.2 (by simpa using hpq)
      hp15 hq15

/-- Witness for `transform_range_and_snapshot`: the Reflection substitution
list is a valid permutation, and transforming the fresh board with it
succeeds with the snapshot property. -/
theorem transform_range_and_snapshot_witness :
    isPermPairs reflectionPairs ∧
    ∃ b', Board.transform ⟨fun p => !(p == 14)⟩ reflectionPairs = .ok b' ∧
      ∀ pq ∈ reflectionPairs,
        pinAt b' pq.2 = pinAt ⟨fun p => !(p == 14)⟩ pq.1 :=
  ⟨by decide, (transform_range_and_snapshot ⟨fun p => !(p == 14)⟩
    reflectionPairs).2 (by decide)⟩

/-- Counterexample to C3 as stated: the single in-range pair list
`[(0, 1)]` is not a permutation of the 15 positions, yet `transform`
succeeds on it instead of raising ValueError. -/
theorem transform_accepts_non_permutation :
    (Board.transform ⟨fun p => !(p == 14)⟩ [(0, 1)]).toOption.isSome = true ∧
    ¬ isPermPairs [(0, 1)] := ⟨by decide, by decide⟩

theorem writeAll_reflection_inv (f : Fin 15 → Bool) :
    writeAll (writeAll f reflectionPairs f) (reflectionPairs.map Prod.swap)
      (writeAll f reflectionPairs f) = f := by
  funext q
  fin_cases q <;> rfl

theorem writeAll_clockwise_inv (f : Fin 15 → Bool) :
    writeAll (writeAll f clockwisePairs f) (clockwisePairs.map Prod.swap)
      (writeAll f clockwisePairs f) = f := by
  funext q
  fin_cases q <;> rfl

theorem writeAll_counterClockwise_inv (f : Fin 15 → Bool) :
    writeAll (writeAll f counterClockwisePairs f)
      (counterClockwisePairs.map Prod.swap)
      (writeAll f counterClockwisePairs f) = f := by
  funext q
  fin_cases q <;> rfl

theorem writeAll_clockwiseReflection_inv (f : Fin 15 → Bool) :
    writeAll (writeAll f clockwiseReflectionPairs f)
      (clockwiseReflectionPairs.map Prod.swap)
      (writeAll f clockwiseReflectionPairs f) = f := by
  funext q
  fin_cases q <;> rfl

theorem writeAll_counterClockwiseReflection_inv (f : Fin 15 → Bool) :
    writeAll (writeAll f counterClockwiseReflectionPairs f)
      (counterClockwiseReflectionPairs.map Prod.swap)
      (writeAll f counterClockwiseReflectionPairs f) = f := by
  funext q
  fin_cases q <;> rfl

theorem writeAll_swap_reflection (f : Fin 15 → Bool) :
    writeAll f (reflectionPairs.map Prod.swap) f =
      writeAll f reflectionPairs f := by
  funext q
  fin_cases q <;> rfl

theorem writeAll_swap_clockwiseReflection (f : Fin 15 → Bool) :
    writeAll f (clockwiseReflectionPairs.map Prod.swap) f =
      writeAll f clockwiseReflectionPairs f := by
  funext q
  fin_cases q <;> rfl

theorem writeAll_swap_counterClockwiseReflection (f : Fin 15 → Bool) :
    writeAll f (counterClockwiseReflectionPairs.map Prod.swap) f =
      writeAll f counterClockwiseReflectionPairs f := by
  funext q
  fin_cases q <;> rfl

theorem writeAll_swap_clockwise (f : Fin 15 → Bool) :
    writeAll f (clockwisePairs.map Prod.swap) f =
      writeAll f counterClockwisePairs f := by
  funext q
  fin_cases q <;> rfl

theorem writeAll_swap_counterClockwise (f : Fin 15 → Bool) :
    writeAll f (counterClockwisePairs.map Prod.swap) f =
      writeAll f clockwisePairs f := by
  funext q
  fin_cases q <;> rfl

/-- C7: applying any of the five fixed transformations and then the
transformation with its `(from, to)` pairs swapped restores the original
board; moreover the swapped Reflection and swapped rotation+reflection
tables act like themselves (self-inverse), and the swapped Clockwise and
Counter-clockwise rotation tables act like each other. -/
theorem transformations_inverse (b : Board) :
    (∀ dt ∈ Board.valid_transformations,
      ∃ b1, Board.transform b dt.2 = .ok b1 ∧
        Board.transform b1 (dt.2.map Prod.swap) = .ok b) ∧
    Board.transform b (reflectionPairs.map Prod.swap) =
      Board.transform b reflectionPairs ∧
    Board.transform b (clockwiseReflectionPairs.map Prod.swap) =
      Board.transform b clockwiseReflectionPairs ∧
    Board.transform b (counterClockwiseReflectionPairs.map Prod.swap) =
      Board.transform b counterClockwiseReflectionPairs ∧
    Board.transform b (clockwisePairs.map Prod.swap) =
      Board.transform b counterClockwisePairs ∧
    Board.transform b (counterClockwisePairs.map Prod.swap) =
      Board.transform b clockwisePairs := by
  obtain ⟨f⟩ := b
  refine ⟨?_, ?_, ?_, ?_, ?_, ?_⟩
  · intro dt hdt
    simp only [Board.valid_transformations, List.mem_cons,
      List.not_mem_nil, or_false] at hdt
    rcases hdt with h | h | h | h | h <;> subst h
    · exact ⟨_, transform_ok _ _ (by decide), by
        rw [transform_ok _ _ (by decide), writeAll_reflection_inv]⟩
    · exact ⟨_, transform_ok _ _ (by decide), by
        rw [transform_ok _ _ (by decide), writeAll_clockwise_inv]⟩
    · exact ⟨_, transform_ok _ _ (by decide), by
        rw [transform_ok _ _ (by decide), writeAll_counterClockwise_inv]⟩
    · exact ⟨_, transform_ok _ _ (by decide), by
        rw [transform_ok _ _ (by decide), writeAll_clockwiseReflection_inv]⟩
    · exact ⟨_, transform_ok _ _ (by decide), by
        rw [transform_ok _ _ (by decide),
          writeAll_counterClockwiseReflection_inv]⟩
  · rw [transform_ok _ _ (by decide), transform_ok _ _ (by decide),
      writeAll_swap_reflection]
  · rw [transform_ok _ _ (by decide), transform_ok _ _ (by decide),
      writeAll_swap_clockwiseReflection]
  · rw [transform_ok _ _ (by decide), transform_ok _ _ (by decide),
      writeAll_swap_counterClockwiseReflection]
  · rw [transform_ok _ _ (by decide), transform_ok _ _ (by decide),
      writeAll_swap_clockwise]
  · rw [transform_ok _ _ (by decide), transform_ok _ _ (by decide),
      writeAll_swap_counterClockwise]

/-- Witness for `transformations_inverse`: clockwise rotation followed by
its pair-swapped inverse restores the fresh board. -/
theorem transformations_inverse_witness :
    ∃ b1, Board.transform ⟨fun p => !(p == 14)⟩ clockwisePairs = .ok b1 ∧
      Board.transform b1 (clockwisePairs.map Prod.swap) =
        .ok ⟨fun p => !(p == 14)⟩ :=
  (transformations_inverse ⟨fun p => !(p == 14)⟩).1
    ("Clockwise rotation", clockwisePairs) (by decide)

/-! ### Helper lemmas: the canonicalizer -/

theorem scanUniques_eq_find (t : Board) : ∀ l : List (Nat × Board),
    scanUniques t l = (l.find? fun q => q.2 == t).map Prod.fst
  | [] => rfl
  | (c, ub) :: rest => by
    simp only [scanUniques, List.find?]
    by_cases h : t = ub
    · subst h
      simp
    · have hbeq : (ub == t) = false := by
        simp [Ne.symm h]
      rw [if_neg h, hbeq, scanUniques_eq_find t rest]

theorem check_transformation_eq (b : Board) (tx : List (Nat × Nat))
    (uniques : List (Nat × Board))
    (h : ∀ pq ∈ tx, pq.1 ≤ 14 ∧ pq.2 ≤ 14) :
    check_transformation b tx uniques = .ok (firstMatch b tx uniques) := by
  unfold check_transformation firstMatch
  simp only [transform_ok (Board.copy b) tx h]
  rw [scanUniques_eq_find]

theorem scanTransformations_eq (conf : Nat) (b : Board)
    (uniques : List (Nat × Board)) :
    ∀ txs : List (String × List (Nat × Nat)),
    (∀ dt ∈ txs, ∀ pq ∈ dt.2, pq.1 ≤ 14 ∧ pq.2 ≤ 14) →
    scanTransformations conf b uniques txs = .ok
      (txs.all fun dt => (firstMatch b dt.2 uniques).isNone,
       txs.filterMap fun dt => (firstMatch b dt.2 uniques).map fun c =>
         TransformationEdge.mk conf c dt.1)
  | [], _ => rfl
  | (d, tx) :: rest, h => by
    have hhd := h (d, tx) (by simp)
    simp only [scanTransformations,
      check_transformation_eq b tx uniques hhd,
      scanTransformations_eq conf b uniques rest
        (fun dt hdt => h dt (by simp [hdt]))]
    cases hm : firstMatch b tx uniques
    · simp [List.all_cons, List.filterMap_cons, hm]
    · simp [List.all_cons, List.filterMap_cons, hm]

/-- C2 (amended): for one working configuration the transformation loop
returns the unique flag and the recorded edges exactly as follows — one
edge for every transformation in the fixed order whose transformed board
matches some unique entry (several edges when several transformations
match), each edge pointing at the first matching unique entry in insertion
order, with the flag cleared iff any transformation matched; and the scan
over the unique configurations is precisely the first-match scan `find?`
in insertion order. -/
theorem scan_edges_per_matching_transformation (conf : Nat) (b : Board)
    (uniques : List (Nat × Board)) :
    scanTransformations conf b uniques Board.valid_transformations = .ok
      (Board.valid_transformations.all fun dt =>
        (firstMatch b dt.2 uniques).isNone,
       Board.valid_transformations.filterMap fun dt =>
        (firstMatch b dt.2 uniques).map fun c =>
          TransformationEdge.mk conf c dt.1) ∧
    ∀ t : Board,
      scanUniques t uniques = (uniques.find? fun q => q.2 == t).map Prod.fst
      := by
  constructor
  · exact scanTransformations_eq conf b uniques Board.valid_transformations
      (by decide)
  · intro t
    exact scanUniques_eq_find t uniques

/-- Counterexample to C2 as stated: running `findtransformations` on the
configurations 32735 (board with only position 9 empty) and 28671 (board
with only position 2 empty, which is reflection-symmetric) records TWO
edges for the single non-unique configuration 28671 — one for `Clockwise
rotation` and one for `Clockwise rotation and reflection` — because the
loop has no `break` after a match, refuting "exactly one transformation
edge is recorded". -/
theorem findtransformations_records_two_edges :
    (findtransformations [32735, 28671] [] []).map
        (fun r => (r.1.map Prod.fst,
          r.2.map fun ed => (ed.from_conf, ed.to_conf, ed.desc))) =
      .ok ([32735],
        [(28671, 32735, "Clockwise rotation"),
         (28671, 32735, "Clockwise rotation and reflection")]) := by decide

theorem expandBoardMoves_ok (b : Board) :
    ∀ l : List (Nat × Nat × Nat), (∀ t ∈ l, t ∈ movesSpec b) →
    ∃ ns ws, expandBoardMoves b l = .ok (ns, ws) ∧
      (∀ b' ∈ ns, pegCount b' + 1 = pegCount b) ∧
      (∀ b' ∈ ws, pegCount b' + 1 = pegCount b)
  | [], _ => ⟨[], [], rfl, by simp, by simp⟩
  | (s, e, j) :: rest, h => by
    have hmem : (s, e, j) ∈ movesSpec b := h _ (by simp)
    have hmv := movesSpec_mem_succeeds b (s, e, j) hmem
    simp only at hmv
    have hpair : Board.move (Board.copy b) s e j =
        ((Board.move b s e j).1, none) := by
      show Board.move b s e j = _
      rw [← hmv.1]
    obtain ⟨ns, ws, hrec, hns, hws⟩ :=
      expandBoardMoves_ok b rest (fun t ht => h t (by simp [ht]))
    simp only [expandBoardMoves, hpair, hrec]
    cases hwon : (Board.move b s e j).1.is_won
    · refine ⟨(Board.move b s e j).1 :: ns, ws, by simp, ?_, hws⟩
      intro b' hb'
      rcases List.mem_cons.mp hb' with h1 | h1
      · subst h1
        exact hmv.2
      · exact hns b' h1
    · refine ⟨ns, (Board.move b s e j).1 :: ws, by simp, hns, ?_⟩
      intro b' hb'
      rcases List.mem_cons.mp hb' with h1 | h1
      · subst h1
        exact hmv.2
      · exact hws b' h1

theorem increment_boards_ok : ∀ bs : List Board,
    ∃ n w l, increment_boards bs = .ok (n, w, l) ∧
      ∀ b' ∈ n, ∃ b ∈ bs, pegCount b' + 1 = pegCount b
  | [] => ⟨[], [], [], rfl, by simp⟩
  | b :: rest => by
    obtain ⟨n, w, l, hrec, hn⟩ := increment_boards_ok rest
    simp only [increment_boards, moves_eq b, hrec]
    by_cases hlen : (movesSpec b).length < 1
    · rw [if_pos hlen]
      exact ⟨n, w, b :: l, rfl, fun b' hb' =>
        (hn b' hb').imp fun p hp => ⟨by simp [hp.1], hp.2⟩⟩
    · rw [if_neg hlen]
      obtain ⟨ns, ws, hexp, hns, hws⟩ :=
        expandBoardMoves_ok b (movesSpec b) (fun t ht => ht)
      rw [hexp]
      refine ⟨ns ++ n, ws ++ w, l, rfl, ?_⟩
      intro b' hb'
      rcases List.mem_append.mp hb' with h1 | h1
      · exact ⟨b, by simp, hns b' h1⟩
      · obtain ⟨p, hp, hpe⟩ := hn b' h1
        exact ⟨p, by simp [hp], hpe⟩

theorem increment_boards_eq (bs : List Board) :
    increment_boards bs = .ok (incrementP bs) := by
  obtain ⟨n, w, l, h, -⟩ := increment_boards_ok bs
  rw [h]
  unfold incrementP
  rw [h]

theorem nextFrontier_pegs (bs : List Board) :
    ∀ b' ∈ nextFrontier bs, ∃ b ∈ bs, pegCount b' + 1 = pegCount b := by
  obtain ⟨n, w, l, h, hn⟩ := increment_boards_ok bs
  have : incrementP bs = (n, w, l) := by
    unfold incrementP
    rw [h]
  unfold nextFrontier
  rw [this]
  exact hn

theorem maxPegs_le {bs : List Board} {m : Nat}
    (h : ∀ b ∈ bs, pegCount b ≤ m) : maxPegs bs ≤ m := by
  induction bs with
  | nil => simp [maxPegs]
  | cons b rest ih =>
    simp only [maxPegs, List.foldr_cons]
    have h1 := h b (by simp)
    have h2 := ih fun x hx => h x (by simp [hx])
    simp only [maxPegs] at h2
    omega

theorem le_maxPegs {bs : List Board} {b : Board} (h : b ∈ bs) :
    pegCount b ≤ maxPegs bs := by
  induction bs with
  | nil => simp at h
  | cons x rest ih =>
    simp only [maxPegs, List.foldr_cons]
    rcases List.mem_cons.mp h with h1 | h1
    · subst h1
      omega
    · have := ih h1
      simp only [maxPegs] at this
      omega

theorem frontierFrom_shift (bs : List Board) :
    ∀ n, frontierFrom bs (n + 1) = frontierFrom (nextFrontier bs) n
  | 0 => rfl
  | n + 1 => by
    show nextFrontier (frontierFrom bs (n + 1)) = _
    rw [frontierFrom_shift bs n]
    rfl

theorem wonAt_shift (bs : List Board) (i : Nat) :
    wonAt bs (i + 1) = wonAt (nextFrontier bs) i := by
  unfold wonAt
  rw [frontierFrom_shift]

theorem lostAt_shift (bs : List Board) (i : Nat) :
    lostAt bs (i + 1) = lostAt (nextFrontier bs) i := by
  unfold lostAt
  rw [frontierFrom_shift]

theorem solveLoop_spec : ∀ (fuel : Nat) (bs : List Board),
    maxPegs bs < fuel →
    ∃ N, frontierFrom bs N = [] ∧ ∀ won lost,
      solveLoop fuel bs won lost = some (.ok
        (won ++ (List.range N).flatMap (wonAt bs),
         lost ++ (List.range N).flatMap (lostAt bs))) := by
  intro fuel
  induction fuel with
  | zero => intro bs h; omega
  | succ f ih =>
    intro bs hmp
    cases bs with
    | nil =>
      exact ⟨0, rfl, fun won lost => by simp [solveLoop]⟩
    | cons b rest =>
      have hempty : ∀ (w l : List Board),
          solveLoop f [] w l = some (.ok (w, l)) := by
        intro w l
        cases f <;> rfl
      have hstep : ∀ won lost, solveLoop (f + 1) (b :: rest) won lost =
          solveLoop f (nextFrontier (b :: rest))
            (won ++ wonAt (b :: rest) 0) (lost ++ lostAt (b :: rest) 0) := by
        intro won lost
        show (match increment_boards (b :: rest) with
          | Except.error m => some (Except.error m)
          | Except.ok (nb, w, l) =>
            solveLoop f nb (won ++ w) (lost ++ l)) = _
        rw [increment_boards_eq]
        rfl
      by_cases hnb : nextFrontier (b :: rest) = []
      · refine ⟨1, by simpa [frontierFrom] using hnb, fun won lost => ?_⟩
        rw [hstep, hnb, hempty]
        have hr : List.range 1 = [0] := rfl
        rw [hr, List.flatMap_cons, List.flatMap_nil, List.flatMap_cons,
          List.flatMap_nil, List.append_nil, List.append_nil]
      · have hchild := nextFrontier_pegs (b :: rest)
        have hbound : maxPegs (nextFrontier (b :: rest)) <
            maxPegs (b :: rest) := by
          have hone : 1 ≤ maxPegs (b :: rest) := by
            obtain ⟨b0, hb0⟩ := List.exists_mem_of_ne_nil _ hnb
            obtain ⟨p, hp, hpe⟩ := hchild b0 hb0
            have := le_maxPegs hp
            omega
          have hle : maxPegs (nextFrontier (b :: rest)) ≤
              maxPegs (b :: rest) - 1 := by
            apply maxPegs_le
            intro b' hb'
            obtain ⟨p, hp, hpe⟩ := hchild b' hb'
            have := le_maxPegs hp
            omega
          omega
        obtain ⟨N, hfr, hloop⟩ := ih (nextFrontier (b :: rest)) (by omega)
        refine ⟨N + 1, ?_, ?_⟩
        · rw [frontierFrom_shift]
          exact hfr
        · intro won lost
          rw [hstep, hloop]
          have hwon : (List.range (N + 1)).flatMap (wonAt (b :: rest)) =
              wonAt (b :: rest) 0 ++
                (List.range N).flatMap (wonAt (nextFrontier (b :: rest)))
              := by
            rw [List.range_succ_eq_map, List.flatMap_cons, List.flatMap_map]
            congr 1
            exact List.flatMap_congr fun i _ => wonAt_shift (b :: rest) i
          have hlost : (List.range (N + 1)).flatMap (lostAt (b :: rest)) =
              lostAt (b :: rest) 0 ++
                (List.range N).flatMap (lostAt (nextFrontier (b :: rest)))
              := by
            rw [List.range_succ_eq_map, List.flatMap_cons, List.flatMap_map]
            congr 1
            exact List.flatMap_congr fun i _ => lostAt_shift (b :: rest) i
          rw [hwon, hlost, List.append_assoc, List.append_assoc]

theorem pegCount_init : ∀ fe : Fin 15, pegCount ⟨fun p => !(p == fe)⟩ = 14 :=
  by decide

/-- C1 (amended): for every valid starting position, the `solve` command's
search loop terminates — the frontier becomes empty after finitely many
generation steps — and returns the union of all won boards and all
dead-end boards collected across every generation of the search.
(`core.find_solutions`, by contrast, rebinds its won list each generation
and never collects dead ends; see the counterexample.) -/
theorem solve_search_collects_all_generations (e : Nat) (he : e ≤ 14) :
    ∃ root N, Board.init e = .ok root ∧ frontierFrom [root] N = [] ∧
      solveLoop 15 [root] [] [] = some (.ok
        ((List.range N).flatMap (wonAt [root]),
         (List.range N).flatMap (lostAt [root]))) := by
  have hlt : e < 15 := by omega
  have hinit : Board.init e = .ok ⟨fun p => !(p == (⟨e, hlt⟩ : Fin 15))⟩ := by
    unfold Board.init
    rw [validatePos_ok _ hlt]
  have hmax : maxPegs [(⟨fun p => !(p == (⟨e, hlt⟩ : Fin 15))⟩ : Board)] = 14
      := by
    simp [maxPegs, pegCount_init]
  obtain ⟨N, hfr, hloop⟩ := solveLoop_spec 15 _ (by rw [hmax]; omega)
  refine ⟨_, N, hinit, hfr, ?_⟩
  simpa using hloop [] []

/-- Witness for `solve_search_collects_all_generations` at the default
starting position 14. -/
theorem solve_search_collects_witness :
    ∃ root N, Board.init 14 = .ok root ∧ frontierFrom [root] N = [] ∧
      solveLoop 15 [root] [] [] = some (.ok
        ((List.range N).flatMap (wonAt [root]),
         (List.range N).flatMap (lostAt [root]))) :=
  solve_search_collects_all_generations 14 (by omega)

/-- Counterexample to C1 as stated: on the two-peg starting board with no
moves, `core.find_solutions` returns `[]`, although generation 0 classifies
that board as a dead end, so the result is not the union of the won and
dead-end boards collected across the generations (which is the nonempty
list `[deadEndPair]`). -/
theorem find_solutions_drops_dead_ends :
    find_solutions_loop 15 [deadEndPair] [] = some (.ok []) ∧
    lostAt [deadEndPair] 0 = [deadEndPair] ∧
    deadEndPair.is_won = false ∧
    Board.moves deadEndPair = .ok [] ∧
    (some (.ok ([] : List Board)) : Option (Except String (List Board))) ≠
      some (.ok ((List.range 1).flatMap (wonAt [deadEndPair]) ++
        (List.range 1).flatMap (lostAt [deadEndPair]))) :=
  ⟨by decide, by decide, by decide, by decide, by decide⟩
